import Mathlib

/-!
Verification of the semver core of git-next-tag (src/semver/parsing.go).

The Go source is embedded shallowly: each Go function becomes a Lean
function over `Nat`, `Bool`, `List Char` and `String`. The anchored
regular expression used by `ParseVersion` is embedded as a deterministic
recursive-descent parser over the character list (the regex has no
ambiguity that backtracking could exploit: the keyword alternatives are
not prefixes of one another, a maximal digit run is never followed by a
digit, and the optional groups are committed exactly when their first
characters match). A Go function that can panic is modelled with an
`Option` wrapper whose `none` stands for the panic, and a Go
`(*T, error)` pair becomes `Except String T`.
-/

deriving instance DecidableEq for Except

namespace GitNextTag

/-- The `VersionSegment` enumeration of parsing.go (iota order preserved). -/
inductive VersionSegment where
  | nonSegment
  | major
  | minor
  | patch
  | alpha
  | beta
  | gamma
  | rc
  | pre
deriving DecidableEq

/-- The integer value of a `VersionSegment`, as Go assigns by iota. -/
def VersionSegment.idx : VersionSegment → Nat
  | .nonSegment => 0
  | .major => 1
  | .minor => 2
  | .patch => 3
  | .alpha => 4
  | .beta => 5
  | .gamma => 6
  | .rc => 7
  | .pre => 8

/-- The `vsName` table of parsing.go: the display name of each segment. -/
def VersionSegment.name : VersionSegment → String
  | .nonSegment => ""
  | .major => "major"
  | .minor => "minor"
  | .patch => "patch"
  | .alpha => "alpha"
  | .beta => "beta"
  | .gamma => "gamma"
  | .rc => "rc"
  | .pre => "pre"

/-- The `ParsedVersion` struct of parsing.go. -/
structure ParsedVersion where
  major : Nat
  minor : Nat
  patch : Nat
  lower : Nat
  lowerCategory : VersionSegment
  isPre : Bool
deriving DecidableEq

/-- `\d` of the regular expression: the ten ASCII digits. -/
def isDig (c : Char) : Bool := 48 ≤ c.toNat && c.toNat ≤ 57

/-- The numeric value of an ASCII digit character. -/
def digVal (c : Char) : Nat := c.toNat - 48

/-- Whether a character list starts with an ASCII digit. -/
def digHead : List Char → Bool
  | [] => false
  | c :: _ => isDig c

/-- Accumulating decimal reader: consumes the maximal digit run,
as the greedy `\d+` of the regular expression does. -/
def readDigitsAux : List Char → Nat → Nat × List Char
  | [], acc => (acc, [])
  | c :: cs, acc => if isDig c then readDigitsAux cs (acc * 10 + digVal c) else (acc, c :: cs)

/-- `\d+` with `strconv.Atoi`: requires at least one digit, consumes the
maximal digit run and returns its value with the rest of the input. -/
def readDigits : List Char → Option (Nat × List Char)
  | [] => none
  | c :: cs => if isDig c then some (readDigitsAux cs (digVal c)) else none

/-- The optional `v?` prefix of the regular expression. Dropping a
leading `v` is safe without backtracking: `v` is not a digit, so a match
that kept the `v` unconsumed would fail on the following `\d+`. -/
def stripV : List Char → List Char
  | [] => []
  | c :: cs => if c = 'v' then cs else c :: cs

/-- The `(alpha|beta|gamma|rc)` alternation of the regular expression.
The four keywords are pairwise non-prefixes, so at most one matches. -/
def parseKeyword (cs : List Char) : Option (VersionSegment × List Char) :=
  match cs with
  | 'a' :: 'l' :: 'p' :: 'h' :: 'a' :: rest => some (.alpha, rest)
  | 'b' :: 'e' :: 't' :: 'a' :: rest => some (.beta, rest)
  | 'g' :: 'a' :: 'm' :: 'm' :: 'a' :: rest => some (.gamma, rest)
  | 'r' :: 'c' :: rest => some (.rc, rest)
  | _ => none

/-- The anchored tail `(?:[-](pre))?\z`: either nothing remains, or
exactly the four characters `-pre` remain. -/
def parsePre (cs : List Char) : Option Bool :=
  if cs = [] then some false
  else if cs = ['-', 'p', 'r', 'e'] then some true
  else none

/-- The anchored tail after `major.minor.patch`: the optional maturity
clause `(?:-(alpha|beta|gamma|rc)[.](\d+))?` followed by the optional
`-pre` clause and the end of the string. If the maturity clause begins
(`-` then a keyword) it is committed: the only other way to consume a
`-` is the literal `-pre`, and no keyword starts with `p`. -/
def parseTail (cs : List Char) : Option (VersionSegment × Nat × Bool) :=
  match cs with
  | '-' :: rest =>
    match parseKeyword rest with
    | some (cat, r1) =>
      match r1 with
      | '.' :: r2 =>
        match readDigits r2 with
        | some (n, r3) => (parsePre r3).map fun p => (cat, n, p)
        | none => none
      | _ => none
    | none => (parsePre cs).map fun p => (VersionSegment.nonSegment, 0, p)
  | _ => (parsePre cs).map fun p => (VersionSegment.nonSegment, 0, p)

/-- `ParseVersion` of parsing.go over a character list: the anchored
regular expression `\Av?(\d+)[.](\d+)[.](\d+)(?:-(alpha|beta|gamma|rc)[.](\d+))?(?:[-](pre))?\z`,
with the captured fields assembled into a `ParsedVersion` exactly as the
Go body does (absent groups leave the zero values `0`, `nonSegment`,
`false`). -/
def parseChars (cs : List Char) : Option ParsedVersion :=
  match readDigits (stripV cs) with
  | none => none
  | some (ma, r1) =>
    match r1 with
    | '.' :: r2 =>
      match readDigits r2 with
      | none => none
      | some (mi, r3) =>
        match r3 with
        | '.' :: r4 =>
          match readDigits r4 with
          | none => none
          | some (pa, r5) =>
            match parseTail r5 with
            | none => none
            | some (cat, low, p) => some ⟨ma, mi, pa, low, cat, p⟩
        | _ => none
    | _ => none

/-- `ParseVersion` of parsing.go; `none` is the Go `nil` result. -/
def ParseVersion (v : String) : Option ParsedVersion := parseChars v.data

/-- Decimal digits of `n`, most significant first, by repeated division;
fuel-structured so that the kernel can evaluate it. -/
def natCharsCore : Nat → Nat → List Char → List Char
  | 0, _, ds => ds
  | fuel + 1, n, ds =>
    if n < 10 then Nat.digitChar n :: ds
    else natCharsCore fuel (n / 10) (Nat.digitChar (n % 10) :: ds)

/-- The decimal rendering of `n`, as Go `fmt.Sprint` renders an `int`. -/
def natChars (n : Nat) : List Char := natCharsCore (n + 1) n []

/-- `ParsedVersion.String` of parsing.go, as a character list:
`major.minor.patch`, then `-category.counter` when the category is not
`nonSegment`, then `-pre` when the pre flag is set. -/
def formatChars (pv : ParsedVersion) : List Char :=
  (natChars pv.major ++ ('.' :: natChars pv.minor) ++ ('.' :: natChars pv.patch))
    ++ (if pv.lowerCategory = .nonSegment then []
        else ('-' :: pv.lowerCategory.name.data) ++ ('.' :: natChars pv.lower))
    ++ (if pv.isPre then ['-', 'p', 'r', 'e'] else [])

/-- `ParsedVersion.String` of parsing.go. -/
def ParsedVersion.toString (pv : ParsedVersion) : String := ⟨formatChars pv⟩

/-- The `lowerMap` table of parsing.go. A missing key yields the Go zero
value `0`, exactly as the total function does for the segments the inner
maps do not mention. -/
def lowerMapVal : VersionSegment → VersionSegment → Nat
  | .alpha, .nonSegment => 1
  | .alpha, .alpha => 1
  | .beta, .nonSegment => 1
  | .beta, .alpha => 2
  | .beta, .beta => 1
  | .gamma, .nonSegment => 1
  | .gamma, .alpha => 2
  | .gamma, .beta => 2
  | .gamma, .gamma => 1
  | .rc, .nonSegment => 1
  | .rc, .alpha => 2
  | .rc, .beta => 2
  | .rc, .gamma => 2
  | .rc, .rc => 1
  | _, _ => 0

/-- `lowerOK` of parsing.go. The outer `Option` models reachability of
the trailing `panic("should not get here")`: `none` is the panic, and
`some` wraps the explicit `(*ParsedVersion, error)` returns. -/
def ParsedVersion.lowerOK (pv : ParsedVersion) (seg : VersionSegment) (isPre : Bool) :
    Option (Except String ParsedVersion) :=
  let i := lowerMapVal seg pv.lowerCategory
  if i = 0 then
    some (.error ("Cannot create an " ++ seg.name ++
      " version if the current version is already a(n) " ++ pv.lowerCategory.name ++ " one"))
  else if i = 1 then
    some (.ok ⟨pv.major, pv.minor, pv.patch, pv.lower + 1, seg, isPre⟩)
  else if i = 2 then
    some (.ok ⟨pv.major, pv.minor, pv.patch, 1, seg, false⟩)
  else none

/-- `IncrementVersion` of parsing.go. `some (.ok v)` is a successful
`(*ParsedVersion, nil)` return, `some (.error e)` an error return, and
`none` a panic escaping from `lowerOK`. -/
def ParsedVersion.IncrementVersion (pv : ParsedVersion) (vs : VersionSegment) (isPre : Bool) :
    Option (Except String ParsedVersion) :=
  match vs with
  | .major => some (.ok ⟨pv.major + 1, 0, 0, 0, .nonSegment, isPre⟩)
  | .minor => some (.ok ⟨pv.major, pv.minor + 1, 0, 0, .nonSegment, isPre⟩)
  | .patch => some (.ok ⟨pv.major, pv.minor, pv.patch + 1, 0, .nonSegment, isPre⟩)
  | .alpha => pv.lowerOK .alpha isPre
  | .beta => pv.lowerOK .beta isPre
  | .gamma => pv.lowerOK .gamma isPre
  | .rc => pv.lowerOK .rc isPre
  | .pre =>
    if !pv.isPre then
      some (.error ("Cannot upgrade non-prerelease version " ++ pv.toString ++
        " to non-prerelease"))
    else
      some (.ok ⟨pv.major, pv.minor, pv.patch, pv.lower, pv.lowerCategory, isPre⟩)
  | .nonSegment => some (.error "Did not specify how to upgrade the version")

/-- `ParsedVersionSlice.Less` of parsing.go, as the binary comparison it
performs on the two slice elements it reads; `none` is a `nil` entry.
Category order uses the Go integer comparison on the enumeration, after
the explicit special cases that put `nonSegment` after every other
category. -/
def lessPV (ti : Option ParsedVersion) (tj : Option ParsedVersion) : Bool :=
  match tj with
  | none => false
  | some tvj =>
    match ti with
    | none => true
    | some tvi =>
      if tvi.major < tvj.major then true
      else if tvi.major > tvj.major then false
      else if tvi.minor < tvj.minor then true
      else if tvi.minor > tvj.minor then false
      else if tvi.patch < tvj.patch then true
      else if tvi.patch > tvj.patch then false
      else if tvi.lowerCategory = .nonSegment ∧ tvj.lowerCategory ≠ .nonSegment then false
      else if tvi.lowerCategory ≠ .nonSegment ∧ tvj.lowerCategory = .nonSegment then true
      else if tvi.lowerCategory.idx < tvj.lowerCategory.idx then true
      else if tvi.lowerCategory.idx > tvj.lowerCategory.idx then false
      else if tvi.lower < tvj.lower then true
      else if tvi.lower > tvj.lower then false
      else if tvi.isPre ∧ ¬tvj.isPre then true
      else if ¬tvi.isPre ∧ tvj.isPre then false
      else false

/-- Adjacent-pair check: every element of the list is `lessPV`-below its
successor, i.e. the list is strictly ascending for the comparator. -/
def ascChain : List (Option ParsedVersion) → Bool
  | [] => true
  | [_] => true
  | a :: b :: rest => lessPV a b && ascChain (b :: rest)

/-- The five maturity categories a `ParsedVersion` can actually carry:
the data-model categories, as opposed to the bump-request-only segments. -/
def ProducibleCat (c : VersionSegment) : Prop :=
  c = .nonSegment ∨ c = .alpha ∨ c = .beta ∨ c = .gamma ∨ c = .rc

instance (c : VersionSegment) : Decidable (ProducibleCat c) := by
  unfold ProducibleCat; infer_instance

/-- The field combinations the parser can produce: a data-model category,
and a zero counter whenever the category is absent. -/
def Producible (pv : ParsedVersion) : Prop :=
  ProducibleCat pv.lowerCategory ∧ (pv.lowerCategory = .nonSegment → pv.lower = 0)

instance (pv : ParsedVersion) : Decidable (Producible pv) := by
  unfold Producible; infer_instance

/-- The data-model consistency invariant stated by the spec: the maturity
category is `None` exactly when the maturity counter is zero. -/
def InvariantPV (pv : ParsedVersion) : Prop :=
  pv.lowerCategory = .nonSegment ↔ pv.lower = 0

instance (pv : ParsedVersion) : Decidable (InvariantPV pv) := by
  unfold InvariantPV; infer_instance

/-- Modelled from the spec (§4.4 legality table of the claim): from which
current categories each maturity bump target is legal. -/
def legalFrom : VersionSegment → VersionSegment → Prop
  | .alpha, c => c = .nonSegment ∨ c = .alpha
  | .beta, c => c = .nonSegment ∨ c = .alpha ∨ c = .beta
  | .gamma, c => c = .nonSegment ∨ c = .alpha ∨ c = .beta ∨ c = .gamma
  | .rc, c => c = .nonSegment ∨ c = .alpha ∨ c = .beta ∨ c = .gamma ∨ c = .rc
  | _, _ => False

instance (t c : VersionSegment) : Decidable (legalFrom t c) := by
  cases t <;> simp only [legalFrom] <;> infer_instance

/-- Modelled from the spec (§4.3): the rank the Comparator is described
to give each data-model category, with `None` above every other. -/
def catRank : VersionSegment → Nat
  | .alpha => 0
  | .beta => 1
  | .gamma => 2
  | .rc => 3
  | .nonSegment => 4
  | _ => 5

/-- Modelled from the spec (§4.3): the described ascending order on two
parseable Version Values, read clause by clause — major, minor, patch,
category rank with `None` last, counter, and the pre marker sorting the
marked value first at full equality. -/
def specLess (x y : ParsedVersion) : Bool :=
  if x.major ≠ y.major then x.major < y.major
  else if x.minor ≠ y.minor then x.minor < y.minor
  else if x.patch ≠ y.patch then x.patch < y.patch
  else if catRank x.lowerCategory ≠ catRank y.lowerCategory then
    catRank x.lowerCategory < catRank y.lowerCategory
  else if x.lower ≠ y.lower then x.lower < y.lower
  else (if x.isPre then 0 else 1) < (if y.isPre then 0 else 1)

/-- Holds of a digit run of the grammar: nonempty, all ASCII digits. -/
def DigitsNE (ds : List Char) : Prop := ds ≠ [] ∧ ∀ c ∈ ds, isDig c = true

instance (ds : List Char) : Decidable (DigitsNE ds) := by
  unfold DigitsNE; infer_instance

/-- The character lists the keyword alternation of the grammar denotes. -/
def KeywordChars (kw : List Char) : Prop :=
  kw = ['a', 'l', 'p', 'h', 'a'] ∨ kw = ['b', 'e', 't', 'a'] ∨
    kw = ['g', 'a', 'm', 'm', 'a'] ∨ kw = ['r', 'c']

instance (kw : List Char) : Decidable (KeywordChars kw) := by
  unfold KeywordChars; infer_instance

/-- Modelled from the spec (§4.1/§6 grammar): what may follow
`major.minor.patch` — at most one maturity clause, then at most one
`-pre` clause, then the end of the string. -/
def TailShape (tl : List Char) : Prop :=
  ∃ mat p : List Char,
    (mat = [] ∨ ∃ kw d, KeywordChars kw ∧ DigitsNE d ∧ mat = ('-' :: kw) ++ ('.' :: d)) ∧
    (p = [] ∨ p = ['-', 'p', 'r', 'e']) ∧ tl = mat ++ p

/-- Modelled from the spec (§4.1/§6 grammar): the full anchored version
grammar `v?major.minor.patch[-(alpha|beta|gamma|rc).counter][-pre]`. -/
def SpecGrammar (cs : List Char) : Prop :=
  ∃ ov d1 d2 d3 tl : List Char,
    (ov = [] ∨ ov = ['v']) ∧ DigitsNE d1 ∧ DigitsNE d2 ∧ DigitsNE d3 ∧ TailShape tl ∧
    cs = ov ++ d1 ++ ('.' :: d2) ++ ('.' :: (d3 ++ tl))


/-- The upper-case counterpart of a lower-case ASCII letter. -/
def upperChar (c : Char) : Char := Char.ofNat (c.toNat - 32)

/-- Modelled from the spec (§6 keyword-case remark): a letter-case
variant of a keyword — the same letters, each either as written or
upper-cased. -/
def caseVarB : List Char → List Char → Bool
  | [], [] => true
  | c :: t, d :: t2 => (d = c || d = upperChar c) && caseVarB t t2
  | _, _ => false

/-! ## Decimal printing and reading agree -/

/-- Accumulator discharge for the decimal printer. -/
theorem natCharsCore_append (fuel : Nat) :
    ∀ n ds, natCharsCore fuel n ds = natCharsCore fuel n [] ++ ds := by
  induction fuel with
  | zero => intro n ds; simp [natCharsCore]
  | succ f ih =>
    intro n ds
    by_cases h : n < 10
    · simp [natCharsCore, h]
    · simp only [natCharsCore, h, if_false]
      rw [ih (n / 10) (Nat.digitChar (n % 10) :: ds), ih (n / 10) [Nat.digitChar (n % 10)]]
      simp

/-- Any sufficient fuel prints the same digits. -/
theorem natCharsCore_fuel (n : Nat) : ∀ f, n < f → natCharsCore f n [] = natChars n := by
  induction n using Nat.strong_induction_on with
  | _ n ih =>
    intro f hf
    match f with
    | f' + 1 =>
      by_cases h10 : n < 10
      · simp [natCharsCore, natChars, h10]
      · have hq : n / 10 < n := Nat.div_lt_self (by omega) (by norm_num)
        have hq' : n / 10 < f' := by omega
        have hqn : n / 10 < n := hq
        simp only [natCharsCore, natChars, h10, if_false]
        rw [natCharsCore_append f' (n / 10), natCharsCore_append n (n / 10),
          ih (n / 10) hqn f' hq', ih (n / 10) hqn n hqn]

/-- Unfolding equation for the decimal printer. -/
theorem natChars_eq (n : Nat) :
    natChars n = if n < 10 then [Nat.digitChar n]
      else natChars (n / 10) ++ [Nat.digitChar (n % 10)] := by
  by_cases h10 : n < 10
  · simp [natChars, natCharsCore, h10]
  · have hq : n / 10 < n := Nat.div_lt_self (by omega) (by norm_num)
    rw [if_neg h10]
    have h1 : natChars n = natCharsCore n (n / 10) [Nat.digitChar (n % 10)] := by
      simp [natChars, natCharsCore, h10]
    rw [h1, natCharsCore_append n (n / 10), natCharsCore_fuel (n / 10) n hq]

theorem isDig_digitChar : ∀ n, n < 10 → isDig (Nat.digitChar n) = true := by decide

theorem digVal_digitChar : ∀ n, n < 10 → digVal (Nat.digitChar n) = n := by decide

/-- Decimal output starts with a digit. -/
theorem natChars_head (n : Nat) : ∃ c t, natChars n = c :: t ∧ isDig c = true := by
  induction n using Nat.strong_induction_on with
  | _ n ih =>
    rw [natChars_eq n]
    by_cases h10 : n < 10
    · exact ⟨Nat.digitChar n, [], by simp [h10], isDig_digitChar n h10⟩
    · have hq : n / 10 < n := Nat.div_lt_self (by omega) (by norm_num)
      obtain ⟨c, t, hct, hc⟩ := ih (n / 10) hq
      exact ⟨c, t ++ [Nat.digitChar (n % 10)], by simp [h10, hct], hc⟩

/-- Reading the printed digits of `n` folds them back onto the accumulator. -/
theorem readDigitsAux_natChars (n : Nat) :
    ∀ acc rest, readDigitsAux (natChars n ++ rest) acc =
      readDigitsAux rest (acc * 10 ^ (natChars n).length + n) := by
  induction n using Nat.strong_induction_on with
  | _ n ih =>
    intro acc rest
    rw [natChars_eq n]
    by_cases h10 : n < 10
    · simp only [h10, if_true, List.cons_append, List.nil_append, readDigitsAux,
        isDig_digitChar n h10, digVal_digitChar n h10, List.length_cons, List.length_nil]
      norm_num
    · have hq : n / 10 < n := Nat.div_lt_self (by omega) (by norm_num)
      have hr : n % 10 < 10 := Nat.mod_lt n (by norm_num)
      simp only [h10, if_false, List.append_assoc, List.cons_append, List.nil_append]
      rw [ih (n / 10) hq acc (Nat.digitChar (n % 10) :: rest)]
      simp only [readDigitsAux, isDig_digitChar _ hr, if_true, digVal_digitChar _ hr,
        List.length_append, List.length_cons, List.length_nil]
      congr 1
      have hdm : 10 * (n / 10) + n % 10 = n := Nat.div_add_mod n 10
      set L := (natChars (n / 10)).length with hL
      set q := n / 10 with hq10
      set r := n % 10 with hr10
      rw [pow_succ, ← hdm]
      ring

/-- Reading stops at a non-digit. -/
theorem readDigitsAux_stop (rest : List Char) (acc : Nat) (h : digHead rest = false) :
    readDigitsAux rest acc = (acc, rest) := by
  match rest with
  | [] => rfl
  | c :: cs => simp only [digHead] at h; simp [readDigitsAux, h]

/-- On digit-headed input, `readDigits` is the accumulating reader from zero. -/
theorem readDigits_eq_aux (cs : List Char) (h : digHead cs = true) :
    readDigits cs = some (readDigitsAux cs 0) := by
  match cs with
  | c :: cs' =>
    simp only [digHead] at h
    simp [readDigits, readDigitsAux, h]

/-- Round trip of one number: reading the printed digits of `n` followed by a
non-digit-headed remainder yields `n` and that remainder. -/
theorem readDigits_natChars (n : Nat) (rest : List Char) (h : digHead rest = false) :
    readDigits (natChars n ++ rest) = some (n, rest) := by
  obtain ⟨c, t, hct, hc⟩ := natChars_head n
  have hdh : digHead (natChars n ++ rest) = true := by rw [hct]; simp [digHead, hc]
  rw [readDigits_eq_aux _ hdh, readDigitsAux_natChars n 0 rest]
  simp [readDigitsAux_stop rest n h]

/-! ## Parser and formatter agree -/

theorem isDig_dot : isDig '.' = false := by decide

theorem digHead_cons (c : Char) (cs : List Char) : digHead (c :: cs) = isDig c := rfl

theorem digHead_dot (x : List Char) : digHead ('.' :: x) = false := by
  rw [digHead_cons]; decide

theorem stripV_digit (cs : List Char) (h : digHead cs = true) : stripV cs = cs := by
  match cs with
  | c :: cs' =>
    have hc : isDig c = true := h
    have hcv : c ≠ 'v' := by
      intro hv
      rw [hv] at hc
      exact absurd hc (by decide)
    simp [stripV, hcv]

theorem natChars_digHead (n : Nat) (rest : List Char) : digHead (natChars n ++ rest) = true := by
  obtain ⟨c, t, hct, hc⟩ := natChars_head n
  rw [hct]
  simp [digHead, hc]

theorem stripV_natChars (n : Nat) (rest : List Char) :
    stripV (natChars n ++ rest) = natChars n ++ rest :=
  stripV_digit _ (natChars_digHead n rest)

theorem preTail_digHead (b : Bool) : digHead (if b then ['-', 'p', 'r', 'e'] else []) = false := by
  cases b <;> decide

theorem parsePre_preTail (b : Bool) : parsePre (if b then ['-', 'p', 'r', 'e'] else []) = some b := by
  cases b <;> decide

theorem parseTail_mat (kw : List Char) (cat : VersionSegment) (n : Nat) (b : Bool)
    (hkw : ∀ r, parseKeyword (kw ++ r) = some (cat, r)) :
    parseTail ('-' :: (kw ++ ('.' :: (natChars n ++ (if b then ['-', 'p', 'r', 'e'] else []))))) =
      some (cat, n, b) := by
  simp only [parseTail, hkw, readDigits_natChars n _ (preTail_digHead b), parsePre_preTail b]
  rfl

theorem parseChars_build (M N P : Nat) (tail : List Char) (cat : VersionSegment) (low : Nat)
    (b : Bool) (hd : digHead tail = false) (ht : parseTail tail = some (cat, low, b)) :
    parseChars (natChars M ++ ('.' :: (natChars N ++ ('.' :: (natChars P ++ tail))))) =
      some ⟨M, N, P, low, cat, b⟩ := by
  have h1 := readDigits_natChars M ('.' :: (natChars N ++ ('.' :: (natChars P ++ tail))))
    (digHead_dot _)
  have h2 := readDigits_natChars N ('.' :: (natChars P ++ tail)) (digHead_dot _)
  have h3 := readDigits_natChars P tail hd
  simp only [parseChars, stripV_natChars, h1, h2, h3, ht]


theorem digHead_dash (x : List Char) : digHead ('-' :: x) = false := by
  rw [digHead_cons]; decide

theorem parseTail_preTail (b : Bool) :
    parseTail (if b then ['-', 'p', 'r', 'e'] else []) = some (.nonSegment, 0, b) := by
  cases b <;> decide

theorem parseKeyword_alpha (r : List Char) :
    parseKeyword (['a', 'l', 'p', 'h', 'a'] ++ r) = some (.alpha, r) := rfl

theorem parseKeyword_beta (r : List Char) :
    parseKeyword (['b', 'e', 't', 'a'] ++ r) = some (.beta, r) := rfl

theorem parseKeyword_gamma (r : List Char) :
    parseKeyword (['g', 'a', 'm', 'm', 'a'] ++ r) = some (.gamma, r) := rfl

theorem parseKeyword_rc (r : List Char) :
    parseKeyword (['r', 'c'] ++ r) = some (.rc, r) := rfl

theorem data_alpha : ("alpha" : String).data = ['a', 'l', 'p', 'h', 'a'] := rfl

theorem data_beta : ("beta" : String).data = ['b', 'e', 't', 'a'] := rfl

theorem data_gamma : ("gamma" : String).data = ['g', 'a', 'm', 'm', 'a'] := rfl

theorem data_rc : ("rc" : String).data = ['r', 'c'] := rfl

theorem roundtrip : ∀ pv, Producible pv → parseChars (formatChars pv) = some pv := by
  rintro ⟨M, N, P, low, cat, b⟩ ⟨hcat, hlow⟩
  rcases hcat with h | h | h | h | h <;> subst h
  · have hl : low = 0 := hlow rfl
    subst hl
    have hfmt : formatChars ⟨M, N, P, 0, .nonSegment, b⟩ =
        natChars M ++ ('.' :: (natChars N ++ ('.' :: (natChars P ++
          (if b then ['-', 'p', 'r', 'e'] else []))))) := by
      simp [formatChars, List.append_assoc, List.cons_append]
    rw [hfmt]
    exact parseChars_build M N P _ _ _ _ (preTail_digHead b) (parseTail_preTail b)
  · have hfmt : formatChars ⟨M, N, P, low, .alpha, b⟩ =
        natChars M ++ ('.' :: (natChars N ++ ('.' :: (natChars P ++
          ('-' :: (['a', 'l', 'p', 'h', 'a'] ++ ('.' :: (natChars low ++
            (if b then ['-', 'p', 'r', 'e'] else []))))))))) := by
      simp [formatChars, VersionSegment.name, data_alpha, List.append_assoc, List.cons_append]
    rw [hfmt]
    exact parseChars_build M N P _ _ _ _ (digHead_dash _) (parseTail_mat _ _ low b parseKeyword_alpha)
  · have hfmt : formatChars ⟨M, N, P, low, .beta, b⟩ =
        natChars M ++ ('.' :: (natChars N ++ ('.' :: (natChars P ++
          ('-' :: (['b', 'e', 't', 'a'] ++ ('.' :: (natChars low ++
            (if b then ['-', 'p', 'r', 'e'] else []))))))))) := by
      simp [formatChars, VersionSegment.name, data_beta, List.append_assoc, List.cons_append]
    rw [hfmt]
    exact parseChars_build M N P _ _ _ _ (digHead_dash _) (parseTail_mat _ _ low b parseKeyword_beta)
  · have hfmt : formatChars ⟨M, N, P, low, .gamma, b⟩ =
        natChars M ++ ('.' :: (natChars N ++ ('.' :: (natChars P ++
          ('-' :: (['g', 'a', 'm', 'm', 'a'] ++ ('.' :: (natChars low ++
            (if b then ['-', 'p', 'r', 'e'] else []))))))))) := by
      simp [formatChars, VersionSegment.name, data_gamma, List.append_assoc, List.cons_append]
    rw [hfmt]
    exact parseChars_build M N P _ _ _ _ (digHead_dash _) (parseTail_mat _ _ low b parseKeyword_gamma)
  · have hfmt : formatChars ⟨M, N, P, low, .rc, b⟩ =
        natChars M ++ ('.' :: (natChars N ++ ('.' :: (natChars P ++
          ('-' :: (['r', 'c'] ++ ('.' :: (natChars low ++
            (if b then ['-', 'p', 'r', 'e'] else []))))))))) := by
      simp [formatChars, VersionSegment.name, data_rc, List.append_assoc, List.cons_append]
    rw [hfmt]
    exact parseChars_build M N P _ _ _ _ (digHead_dash _) (parseTail_mat _ _ low b parseKeyword_rc)

theorem parseKeyword_cat (cs : List Char) (cat : VersionSegment) (r : List Char)
    (h : parseKeyword cs = some (cat, r)) :
    (cat = .alpha ∧ cs = ['a', 'l', 'p', 'h', 'a'] ++ r) ∨
      (cat = .beta ∧ cs = ['b', 'e', 't', 'a'] ++ r) ∨
      (cat = .gamma ∧ cs = ['g', 'a', 'm', 'm', 'a'] ++ r) ∨
      (cat = .rc ∧ cs = ['r', 'c'] ++ r) := by
  unfold parseKeyword at h
  split at h <;> simp_all

theorem parsePre_shape (cs : List Char) (b : Bool) (h : parsePre cs = some b) :
    cs = [] ∨ cs = ['-', 'p', 'r', 'e'] := by
  unfold parsePre at h
  split_ifs at h <;> simp_all

theorem parseTail_shape (cs : List Char) (cat : VersionSegment) (low : Nat) (b : Bool)
    (h : parseTail cs = some (cat, low, b)) :
    (cat = .nonSegment ∧ low = 0) ∨ cat = .alpha ∨ cat = .beta ∨ cat = .gamma ∨ cat = .rc := by
  unfold parseTail at h
  split at h
  · split at h
    · split at h
      · split at h
        · rename_i hkweq scrut n r3 hdig
          simp only [Option.map_eq_some'] at h
          obtain ⟨p, hp, hcat⟩ := h
          injection hcat with h1 h2
          subst h1
          rcases parseKeyword_cat _ _ _ hkweq with ⟨hc, _⟩ | ⟨hc, _⟩ | ⟨hc, _⟩ | ⟨hc, _⟩ <;>
            simp [hc]
        · exact absurd h (by simp)
      · exact absurd h (by simp)
    · simp only [Option.map_eq_some'] at h
      obtain ⟨p, hp, hcat⟩ := h
      injection hcat with h1 h23
      injection h23 with h2 h3
      exact Or.inl ⟨h1.symm, h2.symm⟩
  · simp only [Option.map_eq_some'] at h
    obtain ⟨p, hp, hcat⟩ := h
    injection hcat with h1 h23
    injection h23 with h2 h3
    exact Or.inl ⟨h1.symm, h2.symm⟩

theorem producible_of_parseChars (cs : List Char) (pv : ParsedVersion)
    (h : parseChars cs = some pv) : Producible pv := by
  unfold parseChars at h
  repeat' split at h
  all_goals try exact Option.noConfusion h
  rename_i hpt
  injection h with h'
  subst h'
  rcases parseTail_shape _ _ _ _ hpt with ⟨h1, h2⟩ | h1 | h1 | h1 | h1 <;>
    exact ⟨by simp [ProducibleCat, h1], fun hns => by simp_all⟩


theorem readDigitsAux_shape : ∀ (cs : List Char) (acc : Nat),
    ∃ ds, cs = ds ++ (readDigitsAux cs acc).2 ∧ (∀ c ∈ ds, isDig c = true) ∧
      digHead (readDigitsAux cs acc).2 = false := by
  intro cs
  induction cs with
  | nil => intro acc; exact ⟨[], rfl, by simp, rfl⟩
  | cons c cs ih =>
    intro acc
    by_cases hc : isDig c = true
    · obtain ⟨ds, h1, h2, h3⟩ := ih (acc * 10 + digVal c)
      refine ⟨c :: ds, ?_, ?_, ?_⟩
      · simp only [readDigitsAux, hc, if_true, List.cons_append]
        exact congrArg (c :: ·) h1
      · intro x hx
        rcases List.mem_cons.mp hx with rfl | hx
        · exact hc
        · exact h2 x hx
      · simpa only [readDigitsAux, hc, if_true] using h3
    · have hc2 : isDig c = false := by simpa using hc
      refine ⟨[], ?_, by simp, ?_⟩
      · simp [readDigitsAux, hc2]
      · simp [readDigitsAux, hc2, digHead]

theorem readDigits_shape (cs : List Char) (n : Nat) (rest : List Char)
    (h : readDigits cs = some (n, rest)) :
    ∃ ds, DigitsNE ds ∧ cs = ds ++ rest ∧ digHead rest = false := by
  match cs with
  | [] => exact Option.noConfusion h
  | c :: cs2 =>
    simp only [readDigits] at h
    by_cases hc : isDig c = true
    · rw [if_pos hc] at h
      injection h with h2
      obtain ⟨ds, h1, hdig, h3⟩ := readDigitsAux_shape cs2 (digVal c)
      rw [h2] at h1 h3
      refine ⟨c :: ds, ⟨by simp, ?_⟩, by simp [h1], h3⟩
      intro x hx
      rcases List.mem_cons.mp hx with rfl | hx
      · exact hc
      · exact hdig x hx
    · rw [if_neg hc] at h
      exact Option.noConfusion h

theorem parseKeyword_shape (cs : List Char) (cat : VersionSegment) (r : List Char)
    (h : parseKeyword cs = some (cat, r)) : ∃ kw, KeywordChars kw ∧ cs = kw ++ r := by
  rcases parseKeyword_cat _ _ _ h with ⟨-, hr⟩ | ⟨-, hr⟩ | ⟨-, hr⟩ | ⟨-, hr⟩ <;>
    exact ⟨_, by simp [KeywordChars], hr⟩

theorem stripV_shape (cs : List Char) :
    ∃ ov, (ov = [] ∨ ov = ['v']) ∧ cs = ov ++ stripV cs := by
  match cs with
  | [] => exact ⟨[], Or.inl rfl, rfl⟩
  | c :: r =>
    by_cases hc : c = 'v'
    · subst hc
      exact ⟨['v'], Or.inr rfl, by simp [stripV]⟩
    · exact ⟨[], Or.inl rfl, by simp [stripV, hc]⟩

theorem parseTail_grammar (cs : List Char) (res : VersionSegment × Nat × Bool)
    (h : parseTail cs = some res) : TailShape cs := by
  unfold parseTail at h
  split at h
  · split at h
    · split at h
      · split at h
        · rename_i hkweq scrut n r3 hdig
          simp only [Option.map_eq_some'] at h
          obtain ⟨p, hp, -⟩ := h
          obtain ⟨ds, hdsne, hr2, -⟩ := readDigits_shape _ _ _ hdig
          obtain ⟨kw, hkwc, hrest⟩ := parseKeyword_shape _ _ _ hkweq
          refine ⟨('-' :: kw) ++ ('.' :: ds), r3, Or.inr ⟨kw, ds, hkwc, hdsne, rfl⟩,
            parsePre_shape _ _ hp, ?_⟩
          rw [hrest, hr2]
          simp
        · exact Option.noConfusion h
      · exact Option.noConfusion h
    · simp only [Option.map_eq_some'] at h
      obtain ⟨p, hp, -⟩ := h
      exact ⟨[], _, Or.inl rfl, parsePre_shape _ _ hp, by simp⟩
  · simp only [Option.map_eq_some'] at h
    obtain ⟨p, hp, -⟩ := h
    exact ⟨[], _, Or.inl rfl, parsePre_shape _ _ hp, by simp⟩

theorem parseChars_grammar (cs : List Char) (pv : ParsedVersion)
    (h : parseChars cs = some pv) : SpecGrammar cs := by
  unfold parseChars at h
  repeat' split at h
  all_goals try exact Option.noConfusion h
  rename_i x3 ma r11 r21 hd1 x2 mi r12 r22 hd2 x1 pa r5 hd3 x0 cat low p hpt
  obtain ⟨ds1, hne1, he1, -⟩ := readDigits_shape _ _ _ hd1
  obtain ⟨ds2, hne2, he2, -⟩ := readDigits_shape _ _ _ hd2
  obtain ⟨ds3, hne3, he3, -⟩ := readDigits_shape _ _ _ hd3
  obtain ⟨ov, hov, hcs⟩ := stripV_shape cs
  refine ⟨ov, ds1, ds2, ds3, r5, hov, hne1, hne2, hne3, parseTail_grammar _ _ hpt, ?_⟩
  rw [hcs, he1, he2, he3]
  simp


/-! ## Claims -/

/-- Claim C4: round-trip law — for every Version Value the Parser can
produce from some input string, parsing the formatted rendering of that
value yields the value itself. -/
theorem C4_parse_format_roundtrip (s : String) (pv : ParsedVersion)
    (h : ParseVersion s = some pv) : ParseVersion pv.toString = some pv := by
  have hp : Producible pv := producible_of_parseChars s.data pv h
  show parseChars (ParsedVersion.toString pv).data = some pv
  exact roundtrip pv hp

/-- Witness for C4 at the concrete parse of `1.2.3-beta.2-pre`. -/
theorem C4_parse_format_roundtrip_witness :
    ParseVersion "1.2.3-beta.2-pre" = some ⟨1, 2, 3, 2, .beta, true⟩ ∧
      ParseVersion (ParsedVersion.toString ⟨1, 2, 3, 2, .beta, true⟩) =
        some ⟨1, 2, 3, 2, .beta, true⟩ :=
  ⟨by decide, C4_parse_format_roundtrip "1.2.3-beta.2-pre" ⟨1, 2, 3, 2, .beta, true⟩ (by decide)⟩

/-- Claim C5: the Parser anchors the full input — every accepted string
lies in the grammar `v?major.minor.patch[-(alpha|beta|gamma|rc).counter][-pre]`
(so at most one maturity clause and one `-pre` clause are accepted); the
listed malformed strings are rejected, and a leading `v` is recognized
but dropped from the canonical format. -/
theorem C5_parser_anchored (s : String) (pv : ParsedVersion) (h : ParseVersion s = some pv) :
    SpecGrammar s.data ∧ ParseVersion "" = none ∧ ParseVersion "1.0" = none ∧
      ParseVersion "1.0.0-pre.2" = none ∧ ParseVersion "1.0.0-alpha.2-beta.1" = none ∧
      ParseVersion "v1.0.0-alpha.2" = some ⟨1, 0, 0, 2, .alpha, false⟩ ∧
      ParsedVersion.toString ⟨1, 0, 0, 2, .alpha, false⟩ = "1.0.0-alpha.2" :=
  ⟨parseChars_grammar s.data pv h, by decide, by decide, by decide, by decide, by decide,
    by decide⟩

/-- Witness for C5 at the concrete accepted string `v1.0.0-alpha.2`. -/
theorem C5_parser_anchored_witness :
    ParseVersion "v1.0.0-alpha.2" = some ⟨1, 0, 0, 2, .alpha, false⟩ ∧
      SpecGrammar ("v1.0.0-alpha.2").data :=
  ⟨by decide, (C5_parser_anchored "v1.0.0-alpha.2" ⟨1, 0, 0, 2, .alpha, false⟩ (by decide)).1⟩


/-- Claim C1: the maturity-bump transition table — for a maturity target
the increment fails exactly when the current category is outside the
legal-from set; from None or the same category it keeps the numbers,
bumps the counter and honors the pre flag; from a strictly lower
category it resets the counter to 1 and forces the pre marker false. -/
theorem C1_maturity_transition_table (pv : ParsedVersion) (wantPre : Bool) (T : VersionSegment)
    (hT : T = .alpha ∨ T = .beta ∨ T = .gamma ∨ T = .rc)
    (hc : ProducibleCat pv.lowerCategory) :
    ((∃ e, pv.IncrementVersion T wantPre = some (.error e)) ↔ ¬legalFrom T pv.lowerCategory) ∧
      ((pv.lowerCategory = .nonSegment ∨ pv.lowerCategory = T) →
        pv.IncrementVersion T wantPre =
          some (.ok ⟨pv.major, pv.minor, pv.patch, pv.lower + 1, T, wantPre⟩)) ∧
      (legalFrom T pv.lowerCategory → pv.lowerCategory ≠ .nonSegment → pv.lowerCategory ≠ T →
        pv.IncrementVersion T wantPre =
          some (.ok ⟨pv.major, pv.minor, pv.patch, 1, T, false⟩)) := by
  obtain ⟨M, N, P, low, cat, p⟩ := pv
  rcases hT with rfl | rfl | rfl | rfl <;>
    rcases hc with h | h | h | h | h <;> subst h <;>
      simp [ParsedVersion.IncrementVersion, ParsedVersion.lowerOK, lowerMapVal, legalFrom]

/-- Witness for C1: bumping `1.2.3-beta.2-pre` to gamma with the pre flag
requested still resets the counter and drops the pre marker. -/
theorem C1_maturity_transition_table_witness :
    (VersionSegment.gamma = .alpha ∨ VersionSegment.gamma = .beta ∨
        VersionSegment.gamma = .gamma ∨ VersionSegment.gamma = .rc) ∧
      ProducibleCat (ParsedVersion.lowerCategory ⟨1, 2, 3, 2, .beta, true⟩) ∧
      legalFrom .gamma (ParsedVersion.lowerCategory ⟨1, 2, 3, 2, .beta, true⟩) ∧
      ParsedVersion.IncrementVersion ⟨1, 2, 3, 2, .beta, true⟩ .gamma true =
        some (.ok ⟨1, 2, 3, 1, .gamma, false⟩) :=
  ⟨by decide, by decide, by decide,
    (C1_maturity_transition_table ⟨1, 2, 3, 2, .beta, true⟩ true .gamma (by decide)
      (by decide)).2.2 (by decide) (by decide) (by decide)⟩

/-- Claim C3: all eight increment behaviors from the parse of
`1.2.3-beta.2-pre`, with the exact formatted outputs and error returns. -/
theorem C3_increment_from_beta2pre :
    ParseVersion "1.2.3-beta.2-pre" = some ⟨1, 2, 3, 2, .beta, true⟩ ∧
      ParsedVersion.IncrementVersion ⟨1, 2, 3, 2, .beta, true⟩ .nonSegment false =
        some (.error "Did not specify how to upgrade the version") ∧
      ParsedVersion.IncrementVersion ⟨1, 2, 3, 2, .beta, true⟩ .alpha false =
        some (.error
          "Cannot create an alpha version if the current version is already a(n) beta one") ∧
      ParsedVersion.IncrementVersion ⟨1, 2, 3, 2, .beta, true⟩ .beta false =
        some (.ok ⟨1, 2, 3, 3, .beta, false⟩) ∧
      ParsedVersion.toString ⟨1, 2, 3, 3, .beta, false⟩ = "1.2.3-beta.3" ∧
      ParsedVersion.IncrementVersion ⟨1, 2, 3, 2, .beta, true⟩ .gamma false =
        some (.ok ⟨1, 2, 3, 1, .gamma, false⟩) ∧
      ParsedVersion.toString ⟨1, 2, 3, 1, .gamma, false⟩ = "1.2.3-gamma.1" ∧
      ParsedVersion.IncrementVersion ⟨1, 2, 3, 2, .beta, true⟩ .rc false =
        some (.ok ⟨1, 2, 3, 1, .rc, false⟩) ∧
      ParsedVersion.toString ⟨1, 2, 3, 1, .rc, false⟩ = "1.2.3-rc.1" ∧
      ParsedVersion.IncrementVersion ⟨1, 2, 3, 2, .beta, true⟩ .patch false =
        some (.ok ⟨1, 2, 4, 0, .nonSegment, false⟩) ∧
      ParsedVersion.toString ⟨1, 2, 4, 0, .nonSegment, false⟩ = "1.2.4" ∧
      ParsedVersion.IncrementVersion ⟨1, 2, 3, 2, .beta, true⟩ .minor false =
        some (.ok ⟨1, 3, 0, 0, .nonSegment, false⟩) ∧
      ParsedVersion.toString ⟨1, 3, 0, 0, .nonSegment, false⟩ = "1.3.0" ∧
      ParsedVersion.IncrementVersion ⟨1, 2, 3, 2, .beta, true⟩ .major false =
        some (.ok ⟨2, 0, 0, 0, .nonSegment, false⟩) ∧
      ParsedVersion.toString ⟨2, 0, 0, 0, .nonSegment, false⟩ = "2.0.0" := by decide

/-- Counterexample to C6: for a parseable value and a nil entry, `Less`
answers false with the value first and true with nil first, so a nil
entry sorts before, not after, every parseable value. -/
theorem C6_nil_counterexample :
    lessPV (some ⟨0, 1, 0, 0, .nonSegment, false⟩) none = false ∧
      lessPV none (some ⟨0, 1, 0, 0, .nonSegment, false⟩) = true := by decide

/-- Amended C6: a nil entry sorts before (not after) every parseable
value in the ascending order, so after the callers sort ascending and
reverse, a nil entry is never the first (highest, "current") element
while any parseable value is present. -/
theorem C6_nil_sorts_first (x : ParsedVersion) :
    lessPV (some x) none = false ∧ lessPV none (some x) = true ∧ lessPV none none = false :=
  ⟨rfl, rfl, rfl⟩

/-- Counterexample to C7: parsing `1.0.0-alpha.0` yields a non-None
maturity category with counter 0, violating the claimed invariant. -/
theorem C7_invariant_counterexample :
    ParseVersion "1.0.0-alpha.0" = some ⟨1, 0, 0, 0, .alpha, false⟩ ∧
      ¬InvariantPV ⟨1, 0, 0, 0, .alpha, false⟩ := by decide

/-- Amended C7: the Parser guarantees half of the invariant (category
None forces counter 0), and the Increment Engine preserves the full
invariant; but a parsed value with an explicit zero counter such as
`1.0.0-alpha.0` breaks the other half. -/
theorem C7_invariant_amended :
    (∀ s pv, ParseVersion s = some pv → pv.lowerCategory = .nonSegment → pv.lower = 0) ∧
      (∀ (pv : ParsedVersion) (vs : VersionSegment) (b : Bool) (pv2 : ParsedVersion),
        InvariantPV pv → pv.IncrementVersion vs b = some (.ok pv2) → InvariantPV pv2) := by
  constructor
  · intro s pv h
    exact (producible_of_parseChars s.data pv h).2
  · rintro ⟨M, N, P, low, cat, p⟩ vs b pv2 hinv hok
    simp only [InvariantPV] at hinv
    cases vs <;> cases cat <;> cases p <;>
      simp [ParsedVersion.IncrementVersion, ParsedVersion.lowerOK, lowerMapVal] at hok <;>
      subst hok <;> simp [InvariantPV] at hinv ⊢ <;> omega

/-- Witness for C7 at the parse of `1.0.0`. -/
theorem C7_invariant_amended_witness :
    ParseVersion "1.0.0" = some ⟨1, 0, 0, 0, .nonSegment, false⟩ ∧
      ParsedVersion.lower ⟨1, 0, 0, 0, .nonSegment, false⟩ = 0 :=
  ⟨by decide, C7_invariant_amended.1 "1.0.0" ⟨1, 0, 0, 0, .nonSegment, false⟩ (by decide) rfl⟩

/-- Claim C8: the MarkPre request errors exactly when the current value
is not pre-marked; otherwise it copies every field and sets the pre
marker to the requested flag. -/
theorem C8_markpre (pv : ParsedVersion) (wantPre : Bool) :
    ((∃ e, pv.IncrementVersion .pre wantPre = some (.error e)) ↔ pv.isPre = false) ∧
      (pv.isPre = true → pv.IncrementVersion .pre wantPre =
        some (.ok ⟨pv.major, pv.minor, pv.patch, pv.lower, pv.lowerCategory, wantPre⟩)) := by
  cases h : pv.isPre <;>
    simp [ParsedVersion.IncrementVersion, h]

/-- Witness for C8 at a pre-marked value. -/
theorem C8_markpre_witness :
    ParsedVersion.isPre ⟨1, 0, 0, 0, .nonSegment, true⟩ = true ∧
      ParsedVersion.IncrementVersion ⟨1, 0, 0, 0, .nonSegment, true⟩ .pre false =
        some (.ok ⟨1, 0, 0, 0, .nonSegment, false⟩) :=
  ⟨rfl, (C8_markpre ⟨1, 0, 0, 0, .nonSegment, true⟩ false).2 rfl⟩

/-- Claim C10: for every field assignment of the current value and every
maturity bump target, the table lookup yields 0, 1 or 2, each of which
returns before the trailing panic, so `lowerOK` never panics. -/
theorem C10_lowerOK_no_panic (pv : ParsedVersion) (seg : VersionSegment) (b : Bool)
    (hseg : seg = .alpha ∨ seg = .beta ∨ seg = .gamma ∨ seg = .rc) :
    lowerMapVal seg pv.lowerCategory ≤ 2 ∧ (pv.lowerOK seg b).isSome = true := by
  obtain ⟨M, N, P, low, cat, p⟩ := pv
  rcases hseg with rfl | rfl | rfl | rfl <;> cases cat <;>
    simp [ParsedVersion.lowerOK, lowerMapVal]

/-- Witness for C10 at a current value whose category is the
bump-request-only segment `pre`, outside the data-model categories. -/
theorem C10_lowerOK_no_panic_witness :
    (VersionSegment.alpha = .alpha ∨ VersionSegment.alpha = .beta ∨
        VersionSegment.alpha = .gamma ∨ VersionSegment.alpha = .rc) ∧
      lowerMapVal .alpha (ParsedVersion.lowerCategory ⟨0, 0, 0, 0, .pre, false⟩) ≤ 2 ∧
      (ParsedVersion.lowerOK ⟨0, 0, 0, 0, .pre, false⟩ .alpha false).isSome = true :=
  ⟨by decide, C10_lowerOK_no_panic ⟨0, 0, 0, 0, .pre, false⟩ .alpha false (by decide)⟩

/-- Counterexample to C9: the maturity keyword is not treated
case-insensitively — the upper-case spelling is rejected outright while
the lower-case spelling parses. -/
theorem C9_case_counterexample :
    ParseVersion "1.0.0-ALPHA.2" = none ∧
      ParseVersion "1.0.0-alpha.2" = some ⟨1, 0, 0, 2, .alpha, false⟩ := by decide

theorem cmp_step (a b : Nat) (k1 k2 : Bool) (h : a = b → k1 = k2) :
    (if a < b then true else if a > b then false else k1) =
      (if a ≠ b then decide (a < b) else k2) := by
  by_cases hab : a = b
  · subst hab
    simp [lt_irrefl, h rfl]
  · by_cases hlt : a < b
    · simp [hlt, hab]
    · have hgt : b < a := by omega
      simp [hlt, hgt, hab, Nat.not_lt_of_lt hgt]

theorem cat_step (cx cy : VersionSegment) (hcx : ProducibleCat cx) (hcy : ProducibleCat cy)
    (k1 k2 : Bool) (h : cx = cy → k1 = k2) :
    (if cx = .nonSegment ∧ cy ≠ .nonSegment then false
      else if cx ≠ .nonSegment ∧ cy = .nonSegment then true
      else if cx.idx < cy.idx then true
      else if cx.idx > cy.idx then false else k1) =
      (if catRank cx ≠ catRank cy then decide (catRank cx < catRank cy) else k2) := by
  rcases hcx with h1 | h1 | h1 | h1 | h1 <;> subst h1 <;>
    rcases hcy with h2 | h2 | h2 | h2 | h2 <;> subst h2 <;>
      (simp [VersionSegment.idx, catRank] <;> exact h rfl)

theorem pre_step (px py : Bool) :
    (if px = true ∧ ¬py = true then true else if ¬px = true ∧ py = true then false else false) =
      decide ((if px then 0 else 1) < (if py then 0 else 1)) := by
  cases px <;> cases py <;> decide

theorem lessPV_eq_specLess (x y : ParsedVersion) (hx : Producible x) (hy : Producible y) :
    lessPV (some x) (some y) = specLess x y := by
  obtain ⟨Mx, Nx, Px, lx, cx, px⟩ := x
  obtain ⟨My, Ny, Py, ly, cy, py⟩ := y
  obtain ⟨hcx, -⟩ := hx
  obtain ⟨hcy, -⟩ := hy
  simp only [lessPV, specLess]
  refine cmp_step Mx My _ _ (fun hM => ?_)
  refine cmp_step Nx Ny _ _ (fun hN => ?_)
  refine cmp_step Px Py _ _ (fun hP => ?_)
  refine cat_step cx cy hcx hcy _ _ (fun hC => ?_)
  refine cmp_step lx ly _ _ (fun hl => ?_)
  exact pre_step px py


/-- Claim C2: the Comparator orders parseable values exactly as the spec
describes (major, minor, patch, category with None last and
Alpha < Beta < Gamma < ReleaseCandidate, counter, then the pre-marked
value first), and the ten-element worked example sorts to exactly the
listed ascending arrangement (stated as: the expected arrangement is a
permutation of the input parses and is strictly ascending under the
comparator, which pins it uniquely). -/
theorem C2_comparator_order (x y : ParsedVersion) (hx : Producible x) (hy : Producible y) :
    lessPV (some x) (some y) = specLess x y ∧
      ([ParseVersion "0.1.0-alpha.1", ParseVersion "0.1.0-beta.1",
          ParseVersion "0.1.0-gamma.1-pre", ParseVersion "0.1.0-gamma.1",
          ParseVersion "0.1.0-pre", ParseVersion "0.1.0", ParseVersion "0.1.1",
          ParseVersion "0.2.0", ParseVersion "3.0.1", ParseVersion "3.3.1"].Perm
        [ParseVersion "0.2.0", ParseVersion "0.1.0", ParseVersion "0.1.0-pre",
          ParseVersion "0.1.0-gamma.1-pre", ParseVersion "0.1.0-alpha.1",
          ParseVersion "0.1.0-beta.1", ParseVersion "3.3.1", ParseVersion "0.1.0-gamma.1",
          ParseVersion "0.1.1", ParseVersion "3.0.1"]) ∧
      ascChain
        [ParseVersion "0.1.0-alpha.1", ParseVersion "0.1.0-beta.1",
          ParseVersion "0.1.0-gamma.1-pre", ParseVersion "0.1.0-gamma.1",
          ParseVersion "0.1.0-pre", ParseVersion "0.1.0", ParseVersion "0.1.1",
          ParseVersion "0.2.0", ParseVersion "3.0.1", ParseVersion "3.3.1"] = true :=
  ⟨lessPV_eq_specLess x y hx hy, by decide, by decide⟩

/-- Witness for C2: a gamma pre-marked value against the plain release of
the same numbers. -/
theorem C2_comparator_order_witness :
    Producible ⟨0, 1, 0, 1, .gamma, true⟩ ∧ Producible ⟨0, 1, 0, 0, .nonSegment, false⟩ ∧
      lessPV (some ⟨0, 1, 0, 1, .gamma, true⟩) (some ⟨0, 1, 0, 0, .nonSegment, false⟩) =
        specLess ⟨0, 1, 0, 1, .gamma, true⟩ ⟨0, 1, 0, 0, .nonSegment, false⟩ :=
  ⟨by decide, by decide,
    (C2_comparator_order ⟨0, 1, 0, 1, .gamma, true⟩ ⟨0, 1, 0, 0, .nonSegment, false⟩
      (by decide) (by decide)).1⟩


theorem readDigitsAux_run (ds : List Char) : ∀ (acc : Nat) (rest : List Char),
    (∀ c ∈ ds, isDig c = true) → ∃ m, readDigitsAux (ds ++ rest) acc = readDigitsAux rest m := by
  induction ds with
  | nil => intro acc rest h; exact ⟨acc, rfl⟩
  | cons c t ih =>
    intro acc rest h
    have hc : isDig c = true := h c (by simp)
    obtain ⟨m, hm⟩ := ih (acc * 10 + digVal c) rest (fun x hx => h x (by simp [hx]))
    exact ⟨m, by simp [readDigitsAux, hc, hm]⟩

theorem readDigits_run (ds rest : List Char) (hds : DigitsNE ds) (hrest : digHead rest = false) :
    ∃ n, readDigits (ds ++ rest) = some (n, rest) := by
  obtain ⟨hne, hall⟩ := hds
  match ds, hne with
  | c :: t, _ =>
    have hc : isDig c = true := hall c (by simp)
    obtain ⟨m, hm⟩ := readDigitsAux_run t (digVal c) rest (fun x hx => hall x (by simp [hx]))
    exact ⟨m, by simp [readDigits, hc, hm, readDigitsAux_stop rest m hrest]⟩

theorem digHead_digits (ds : List Char) (hds : DigitsNE ds) (rest : List Char) :
    digHead (ds ++ rest) = true := by
  obtain ⟨hne, hall⟩ := hds
  match ds, hne with
  | c :: t, _ => exact hall c (by simp)

theorem parseTail_caseVar_none (kw kw2 dd p : List Char) (hkw : KeywordChars kw)
    (hcv : caseVarB kw kw2 = true) (hne : kw2 ≠ kw) :
    parseTail ('-' :: (kw2 ++ ('.' :: (dd ++ p)))) = none := by
  rcases hkw with rfl | rfl | rfl | rfl
  · rcases kw2 with _ | ⟨u1, _ | ⟨u2, _ | ⟨u3, _ | ⟨u4, _ | ⟨u5, _ | ⟨u6, t⟩⟩⟩⟩⟩⟩ <;>
      simp only [caseVarB, Bool.and_eq_true, Bool.or_eq_true, decide_eq_true_eq,
        Bool.false_eq_true, and_true, and_false] at hcv
    obtain ⟨hd1, hd2, hd3, hd4, hd5⟩ := hcv
    rcases hd1 with rfl | rfl <;> rcases hd2 with rfl | rfl <;> rcases hd3 with rfl | rfl <;>
      rcases hd4 with rfl | rfl <;> rcases hd5 with rfl | rfl <;>
        first
          | exact absurd rfl hne
          | rfl
  · rcases kw2 with _ | ⟨u1, _ | ⟨u2, _ | ⟨u3, _ | ⟨u4, _ | ⟨u5, t⟩⟩⟩⟩⟩ <;>
      simp only [caseVarB, Bool.and_eq_true, Bool.or_eq_true, decide_eq_true_eq,
        Bool.false_eq_true, and_true, and_false] at hcv
    obtain ⟨hd1, hd2, hd3, hd4⟩ := hcv
    rcases hd1 with rfl | rfl <;> rcases hd2 with rfl | rfl <;> rcases hd3 with rfl | rfl <;>
      rcases hd4 with rfl | rfl <;>
        first
          | exact absurd rfl hne
          | rfl
  · rcases kw2 with _ | ⟨u1, _ | ⟨u2, _ | ⟨u3, _ | ⟨u4, _ | ⟨u5, _ | ⟨u6, t⟩⟩⟩⟩⟩⟩ <;>
      simp only [caseVarB, Bool.and_eq_true, Bool.or_eq_true, decide_eq_true_eq,
        Bool.false_eq_true, and_true, and_false] at hcv
    obtain ⟨hd1, hd2, hd3, hd4, hd5⟩ := hcv
    rcases hd1 with rfl | rfl <;> rcases hd2 with rfl | rfl <;> rcases hd3 with rfl | rfl <;>
      rcases hd4 with rfl | rfl <;> rcases hd5 with rfl | rfl <;>
        first
          | exact absurd rfl hne
          | rfl
  · rcases kw2 with _ | ⟨u1, _ | ⟨u2, _ | ⟨u3, t⟩⟩⟩ <;>
      simp only [caseVarB, Bool.and_eq_true, Bool.or_eq_true, decide_eq_true_eq,
        Bool.false_eq_true, and_true, and_false] at hcv
    obtain ⟨hd1, hd2⟩ := hcv
    rcases hd1 with rfl | rfl <;> rcases hd2 with rfl | rfl <;>
      first
        | exact absurd rfl hne
        | rfl

theorem parsePre_nil : parsePre [] = some false := rfl

theorem parsePre_dashpre : parsePre ['-', 'p', 'r', 'e'] = some true := rfl

theorem parseTail_run (kw dd p : List Char) (hkw : KeywordChars kw) (hdd : DigitsNE dd)
    (hp : p = [] ∨ p = ['-', 'p', 'r', 'e']) :
    ∃ res, parseTail ('-' :: (kw ++ ('.' :: (dd ++ p)))) = some res := by
  have hph : digHead p = false := by rcases hp with rfl | rfl <;> rfl
  obtain ⟨n, hn⟩ := readDigits_run dd p hdd hph
  have hpre : ∃ b, parsePre p = some b := by
    rcases hp with rfl | rfl
    · exact ⟨false, parsePre_nil⟩
    · exact ⟨true, parsePre_dashpre⟩
  obtain ⟨b, hb⟩ := hpre
  rcases hkw with rfl | rfl | rfl | rfl
  · exact ⟨(.alpha, n, b), by simp only [parseTail, parseKeyword_alpha, hn, hb]; rfl⟩
  · exact ⟨(.beta, n, b), by simp only [parseTail, parseKeyword_beta, hn, hb]; rfl⟩
  · exact ⟨(.gamma, n, b), by simp only [parseTail, parseKeyword_gamma, hn, hb]; rfl⟩
  · exact ⟨(.rc, n, b), by simp only [parseTail, parseKeyword_rc, hn, hb]; rfl⟩

theorem stripV_shape_run (ov X : List Char) (hov : ov = [] ∨ ov = ['v'])
    (hX : digHead X = true) : stripV (ov ++ X) = X := by
  rcases hov with rfl | rfl
  · rw [List.nil_append]
    exact stripV_digit _ hX
  · match X, hX with
    | c :: t, _ => rfl

theorem parseChars_tail_none (ov d1 d2 d3 tail : List Char) (hov : ov = [] ∨ ov = ['v'])
    (h1 : DigitsNE d1) (h2 : DigitsNE d2) (h3 : DigitsNE d3) (htail : digHead tail = false)
    (ht : parseTail tail = none) :
    parseChars (ov ++ (d1 ++ ('.' :: (d2 ++ ('.' :: (d3 ++ tail)))))) = none := by
  obtain ⟨n1, e1⟩ := readDigits_run d1 ('.' :: (d2 ++ ('.' :: (d3 ++ tail)))) h1 (digHead_dot _)
  obtain ⟨n2, e2⟩ := readDigits_run d2 ('.' :: (d3 ++ tail)) h2 (digHead_dot _)
  obtain ⟨n3, e3⟩ := readDigits_run d3 tail h3 htail
  have hstrip := stripV_shape_run ov (d1 ++ ('.' :: (d2 ++ ('.' :: (d3 ++ tail))))) hov
    (digHead_digits d1 h1 _)
  simp only [parseChars, hstrip, e1, e2, e3, ht]

theorem parseChars_tail_isSome (ov d1 d2 d3 tail : List Char) (cat : VersionSegment)
    (low : Nat) (b : Bool) (hov : ov = [] ∨ ov = ['v'])
    (h1 : DigitsNE d1) (h2 : DigitsNE d2) (h3 : DigitsNE d3) (htail : digHead tail = false)
    (ht : parseTail tail = some (cat, low, b)) :
    (parseChars (ov ++ (d1 ++ ('.' :: (d2 ++ ('.' :: (d3 ++ tail))))))).isSome = true := by
  obtain ⟨n1, e1⟩ := readDigits_run d1 ('.' :: (d2 ++ ('.' :: (d3 ++ tail)))) h1 (digHead_dot _)
  obtain ⟨n2, e2⟩ := readDigits_run d2 ('.' :: (d3 ++ tail)) h2 (digHead_dot _)
  obtain ⟨n3, e3⟩ := readDigits_run d3 tail h3 htail
  have hstrip := stripV_shape_run ov (d1 ++ ('.' :: (d2 ++ ('.' :: (d3 ++ tail))))) hov
    (digHead_digits d1 h1 _)
  simp only [parseChars, hstrip, e1, e2, e3, ht, Option.isSome_some]

/-- Amended C9: the anchored pattern admits only the all-lower-case
maturity keywords — for every version-shaped string whose maturity
keyword is a letter-case variant of alpha, beta, gamma or rc other than
the all-lower-case spelling itself, the Parser returns nil, while the
same string with the all-lower-case keyword is accepted; the lower-case
normalization inside `ParseVersion` therefore never observes another
spelling. -/
theorem C9_lowercase_universal :
    (∀ ov d1 d2 d3 dd kw kw2 p : List Char,
        (ov = [] ∨ ov = ['v']) → DigitsNE d1 → DigitsNE d2 → DigitsNE d3 → DigitsNE dd →
        KeywordChars kw → caseVarB kw kw2 = true → kw2 ≠ kw →
        (p = [] ∨ p = ['-', 'p', 'r', 'e']) →
        parseChars (ov ++ (d1 ++ ('.' :: (d2 ++ ('.' :: (d3 ++
          ('-' :: (kw2 ++ ('.' :: (dd ++ p)))))))))) = none) ∧
      (∀ ov d1 d2 d3 dd kw p : List Char,
        (ov = [] ∨ ov = ['v']) → DigitsNE d1 → DigitsNE d2 → DigitsNE d3 → DigitsNE dd →
        KeywordChars kw → (p = [] ∨ p = ['-', 'p', 'r', 'e']) →
        (parseChars (ov ++ (d1 ++ ('.' :: (d2 ++ ('.' :: (d3 ++
          ('-' :: (kw ++ ('.' :: (dd ++ p))))))))))).isSome = true) ∧
      ParseVersion "1.0.0-ALPHA.2" = none ∧ ParseVersion "1.0.0-Rc.1" = none ∧
      ParseVersion "1.0.0-Beta.1" = none ∧ ParseVersion "1.0.0-gAmma.3" = none ∧
      ParseVersion "1.0.0-alpha.2" = some ⟨1, 0, 0, 2, .alpha, false⟩ ∧
      ParseVersion "1.0.0-rc.1" = some ⟨1, 0, 0, 1, .rc, false⟩ ∧
      ParseVersion "1.0.0-beta.1" = some ⟨1, 0, 0, 1, .beta, false⟩ ∧
      ParseVersion "1.0.0-gamma.3" = some ⟨1, 0, 0, 3, .gamma, false⟩ := by
  refine ⟨?_, ?_, by decide, by decide, by decide, by decide, by decide, by decide, by decide,
    by decide⟩
  · intro ov d1 d2 d3 dd kw kw2 p hov h1 h2 h3 hdd hkw hcv hne hp
    exact parseChars_tail_none ov d1 d2 d3 _ hov h1 h2 h3 (digHead_dash _)
      (parseTail_caseVar_none kw kw2 dd p hkw hcv hne)
  · intro ov d1 d2 d3 dd kw p hov h1 h2 h3 hdd hkw hp
    obtain ⟨res, hres⟩ := parseTail_run kw dd p hkw hdd hp
    obtain ⟨cat, low, b⟩ := res
    exact parseChars_tail_isSome ov d1 d2 d3 _ cat low b hov h1 h2 h3 (digHead_dash _) hres

/-- Witness for C9 at the concrete variant `ALPHA` of `alpha`. -/
theorem C9_lowercase_universal_witness :
    DigitsNE ['1'] ∧ DigitsNE ['0'] ∧ DigitsNE ['2'] ∧ KeywordChars ['a', 'l', 'p', 'h', 'a'] ∧
      caseVarB ['a', 'l', 'p', 'h', 'a'] ['A', 'L', 'P', 'H', 'A'] = true ∧
      ['A', 'L', 'P', 'H', 'A'] ≠ ['a', 'l', 'p', 'h', 'a'] ∧
      parseChars ([] ++ (['1'] ++ ('.' :: (['0'] ++ ('.' :: (['0'] ++
        ('-' :: (['A', 'L', 'P', 'H', 'A'] ++ ('.' :: (['2'] ++ [])))))))))) = none :=
  ⟨by decide, by decide, by decide, by decide, by decide, by decide,
    C9_lowercase_universal.1 [] ['1'] ['0'] ['0'] ['2'] ['a', 'l', 'p', 'h', 'a']
      ['A', 'L', 'P', 'H', 'A'] [] (Or.inl rfl) (by decide) (by decide) (by decide) (by decide)
      (by decide) (by decide) (by decide) (Or.inl rfl)⟩

end GitNextTag
